import Mathlib

/-!
Verification of the CircuitVerse semantic-search core: a shallow embedding of
the retrieval and score-fusion engine in `src/hybrid_search.py` and
`src/baseline_search.py`, together with theorems settling the specification's
claims about it.

Modelling conventions:
* Scores are rationals (`ℚ`); the Python floats `0.45`, `0.45`, `0.1` become
  `9/20`, `9/20`, `1/10`.
* Strings are modelled over their character lists.  The ASCII fragment of
  Python's Unicode-aware `str.lower`, `\w` and `\s` is embedded: `\w` is
  letter/digit/underscore, `\s` is the six ASCII whitespace characters.
* External libraries (`rank_bm25.BM25Okapi.get_scores`, the sentence
  transformer's `encode`) are oracles: their outputs enter as parameters
  (`bm25`, `qvec`).  The precomputed embedding matrix enters as a list of
  rows of rationals.
* `np.argsort` with numpy's default unstable quicksort guarantees no order
  among equal keys at scale.  `argsortAsc` is one deterministic
  representative of the admissible outputs (the stable ascending argsort);
  the general theorems draw only conclusions invariant under the order of
  equal keys (result counts, non-strict sortedness, per-element score
  facts).  Tie order itself is relied on only at concrete instances of two
  elements, where numpy's default sort demonstrably runs its stable
  insertion sort.
* numpy elementwise arithmetic on 1-D arrays is modelled with its broadcast
  rule: equal lengths combine pointwise, a length-1 operand broadcasts, and
  any other length mismatch is an error (`none`), matching the `ValueError`
  numpy raises.  Out-of-range indexing (`IndexError`) is modelled by the
  `Option`-valued list indexing in `buildResults`.
-/

namespace CircuitSearch

/-- ASCII fragment of Python's `\s` / `str.split()` whitespace set. -/
def pyIsSpace (c : Char) : Bool :=
  c = ' ' || c = '\t' || c = '\n' || c = '\r' || c = '\x0b' || c = '\x0c'

/-- ASCII fragment of Python's regex `\w`: letter, digit, or underscore. -/
def pyIsWordChar (c : Char) : Bool :=
  c.isAlphanum || c = '_'

/-- One character of `re.sub(r'[^\w\s]', ' ', text)`: a character that is
neither a word character nor whitespace becomes a single space. -/
def normChar (c : Char) : Char :=
  if !pyIsWordChar c && !pyIsSpace c then ' ' else c

/-- Whitespace split with accumulator, modelling Python's `str.split()`:
runs of whitespace separate tokens and produce no empty tokens. -/
def splitWsAux : List Char → List Char → List (List Char)
  | [], acc => if acc.isEmpty then [] else [acc.reverse]
  | c :: cs, acc =>
    if pyIsSpace c then
      if acc.isEmpty then splitWsAux cs [] else acc.reverse :: splitWsAux cs []
    else splitWsAux cs (c :: acc)

/-- Python's `str.split()` on whitespace. -/
def splitWs (l : List Char) : List (List Char) :=
  splitWsAux l []

/-- Character-level core of `tokenize` (src/hybrid_search.py lines 23-28,
src/baseline_search.py lines 17-24): lowercase, map punctuation to spaces,
split on whitespace, keep tokens of length `> 1`. -/
def tokenizeChars (l : List Char) : List (List Char) :=
  (splitWs ((l.map Char.toLower).map normChar)).filter fun t => 1 < t.length

/-- `tokenize` from src/hybrid_search.py lines 23-28 (identical in
src/baseline_search.py lines 17-24), including the `if not text` guard. -/
def tokenize (text : String) : List String :=
  if text.data = [] then []
  else (tokenizeChars text.data).map fun cs => String.mk cs

/-- Definition following the words of the original tokenizer claim:
"replacing every character that is not a letter, digit, or whitespace with a
single space" — note: letter or digit only, no underscore. -/
def tokenizeClaimLetterDigit (text : String) : List String :=
  let lowered := text.data.map Char.toLower
  let replaced := lowered.map fun c => if c.isAlphanum || pyIsSpace c then c else ' '
  ((splitWs replaced).filter fun t => 1 < t.length).map fun cs => String.mk cs

/-- Definition following the words of the amended tokenizer claim:
"replacing every character that is not a letter, digit, underscore, or
whitespace with a single space". -/
def tokenizeAmendedSpec (text : String) : List String :=
  let lowered := text.data.map Char.toLower
  let replaced := lowered.map fun c => if pyIsWordChar c || pyIsSpace c then c else ' '
  ((splitWs replaced).filter fun t => 1 < t.length).map fun cs => String.mk cs

/-- `k` is a prefix of the second list. -/
def isPrefixList : List Char → List Char → Bool
  | [], _ => true
  | _ :: _, [] => false
  | a :: as, b :: bs => a = b && isPrefixList as bs

/-- Python's `in` on strings: `k` occurs as a contiguous substring. -/
def isSubstrList : List Char → List Char → Bool
  | k, [] => isPrefixList k []
  | k, c :: t => isPrefixList k (c :: t) || isSubstrList k t

/-- A detected structural intent: the rule's match set and optional opposite
component (src/hybrid_search.py `COMPONENT_KEYWORDS` values; the source's
single-string `match` entries are the one-element match sets here). -/
structure Intent where
  matched : List String
  opposite : Option String
deriving DecidableEq

/-- `HybridSearch.COMPONENT_KEYWORDS` (src/hybrid_search.py lines 34-47), as
an ordered association list: Python dicts iterate in insertion order. -/
def COMPONENT_KEYWORDS : List (String × Intent) := [
  ("multiplexer", ⟨["Multiplexer"], some "Demultiplexer"⟩),
  ("mux", ⟨["Multiplexer"], some "Demultiplexer"⟩),
  ("demultiplexer", ⟨["Demultiplexer"], some "Multiplexer"⟩),
  ("demux", ⟨["Demultiplexer"], some "Multiplexer"⟩),
  ("flip flop", ⟨["DflipFlop", "JKflipFlop", "SRflipFlop", "TflipFlop"], none⟩),
  ("latch", ⟨["DflipFlop", "SRflipFlop"], none⟩),
  ("memory element", ⟨["DflipFlop", "JKflipFlop", "SRflipFlop", "TflipFlop", "Ram", "EEPROM"], none⟩),
  ("adder", ⟨["FullAdder", "HalfAdder"], none⟩),
  ("display", ⟨["SevenSegDisplay", "HexDisplay", "DigitalLed"], none⟩),
  ("seven segment", ⟨["SevenSegDisplay"], none⟩),
  ("counter", ⟨["Counter"], none⟩),
  ("decoder", ⟨["Decoder"], none⟩)]

/-- Lowercasing of a character list (Python `str.lower()`, ASCII fragment). -/
def pyLower (l : List Char) : List Char :=
  l.map Char.toLower

/-- `HybridSearch._detect_component_intent` (src/hybrid_search.py lines
84-89): first table rule whose keyword is a substring of the lowercased
query. -/
def detectComponentIntent (query : String) : Option Intent :=
  (COMPONENT_KEYWORDS.find? fun kv => isSubstrList kv.1.data (pyLower query.data)).map
    fun kv => kv.2

/-- A document: the fields the search core reads.  `component_breakdown` is
the key set of the source's component-count mapping (`comp in breakdown`
tests key membership only); a document with the field absent has the empty
list, matching `circuit.get('component_breakdown', {})`. -/
structure Circuit where
  embedding_text : String
  component_breakdown : List String
deriving DecidableEq

/-- `HybridSearch._calculate_component_score` (src/hybrid_search.py lines
91-110). -/
def calcComponentScore (circuit : Circuit) (intent : Option Intent) : ℚ :=
  match intent with
  | none => 1/2
  | some ci =>
    if ci.matched.any fun comp => circuit.component_breakdown.contains comp then 1
    else
      match ci.opposite with
      | some op => if circuit.component_breakdown.contains op then 0 else 1/2
      | none => 1/2

/-- Valid-subset test from `HybridSearch.__init__` (src/hybrid_search.py
line 71): `text and text != 'Empty circuit' and len(text) > 10`. -/
def isValidText (t : String) : Bool :=
  !t.data.isEmpty && t != "Empty circuit" && decide (10 < t.data.length)

/-- Dense positions admitted to the valid subset, in order
(src/hybrid_search.py lines 68-73, the `enumerate` loop). -/
def validIndices (circuits : List Circuit) : List ℕ :=
  (List.range circuits.length).filter fun i =>
    isValidText ((circuits.getD i (Circuit.mk "" [])).embedding_text)

/-- Enriched texts of the valid subset, in order (src/hybrid_search.py
lines 68-73). -/
def enrichedTexts (circuits : List Circuit) : List String :=
  (circuits.filter fun c => isValidText c.embedding_text).map fun c => c.embedding_text

/-- Loaded engine state: corpus, embedding matrix, and the valid-subset
bookkeeping built by `HybridSearch.__init__`. -/
structure HybridState where
  circuits : List Circuit
  embeddings : List (List ℚ)
  enriched_texts : List String
  valid_indices : List ℕ
deriving DecidableEq

/-- The engine state a *successful* `HybridSearch.__init__`
(src/hybrid_search.py lines 49-82) produces, with the file and model
loading abstracted to parameters.  Note: the source performs no
consistency check between `circuits` and `embeddings`. -/
def hybridInit (circuits : List Circuit) (embeddings : List (List ℚ)) : HybridState :=
  { circuits := circuits
    embeddings := embeddings
    enriched_texts := enrichedTexts circuits
    valid_indices := validIndices circuits }

/-- `HybridSearch.__init__` including the `BM25Okapi(tokenized_corpus)`
construction of src/hybrid_search.py line 80: rank_bm25's `_initialize`
ends with `avgdl = num_doc / corpus_size`, a `ZeroDivisionError` when the
corpus handed to it is empty, so loading fails whenever the valid subset is
empty and otherwise yields the ready engine state. -/
def hybridLoad (circuits : List Circuit) (embeddings : List (List ℚ)) : Option HybridState :=
  if (validIndices circuits).isEmpty then none
  else some (hybridInit circuits embeddings)

/-- Dot product (`np.dot` of two equal-length vectors). -/
def dotp (a b : List ℚ) : ℚ :=
  (List.zipWith (fun x y => x * y) a b).sum

/-- `np.dot(self.embeddings, query_embedding)` (src/hybrid_search.py line
116): one semantic score per embedding-matrix row. -/
def semanticScores (st : HybridState) (qvec : List ℚ) : List ℚ :=
  st.embeddings.map fun row => dotp row qvec

/-- `np.max` of a nonempty array; `0` on the empty list (the source never
reaches that case with a nonempty valid subset). -/
def listMax : List ℚ → ℚ
  | [] => 0
  | x :: xs => xs.foldl max x

/-- Keyword scores over the valid subset (src/hybrid_search.py lines
119-126): BM25 oracle output normalized by its positive maximum, or a zero
vector when the query tokenizes to nothing. -/
def keywordScoresValid (st : HybridState) (query : String) (bm25 : List ℚ) : List ℚ :=
  if (tokenize query).isEmpty then List.replicate st.valid_indices.length 0
  else if 0 < listMax bm25 then bm25.map fun s => s / listMax bm25
  else bm25

/-- The scatter loop of src/hybrid_search.py lines 129-131: a zero array of
the full corpus length, written at the recorded valid positions.  (In the
source every recorded position is in range, so `List.set`'s silent
out-of-range behaviour is never exercised.) -/
def scatter (n : ℕ) (positions : List ℕ) (vals : List ℚ) : List ℚ :=
  (positions.zip vals).foldl (fun acc p => acc.set p.1 p.2) (List.replicate n 0)

/-- `keyword_scores_full` (src/hybrid_search.py lines 129-131). -/
def keywordScoresFull (st : HybridState) (query : String) (bm25 : List ℚ) : List ℚ :=
  scatter st.circuits.length st.valid_indices (keywordScoresValid st query bm25)

/-- `component_scores` (src/hybrid_search.py lines 134-138). -/
def componentScores (st : HybridState) (query : String) : List ℚ :=
  st.circuits.map fun c => calcComponentScore c (detectComponentIntent query)

/-- numpy 1-D broadcasting for a binary elementwise operation: equal lengths
combine pointwise, a length-1 operand broadcasts, anything else raises. -/
def bcast2 (f : ℚ → ℚ → ℚ) (a b : List ℚ) : Option (List ℚ) :=
  if a.length = b.length then some (List.zipWith f a b)
  else if a.length = 1 then some (b.map fun x => f (a.headD 0) x)
  else if b.length = 1 then some (a.map fun x => f x (b.headD 0))
  else none

/-- The fusion formula `0.45 * semantic + 0.45 * keyword + 0.1 * component`
(src/hybrid_search.py lines 141-145), evaluated left to right with numpy
broadcast semantics. -/
def finalScores (sem kw comp : List ℚ) : Option (List ℚ) :=
  (bcast2 (fun x y => (9/20) * x + (9/20) * y) sem kw).bind fun sk =>
    bcast2 (fun x y => x + (1/10) * y) sk comp

/-- Ascending argsort order on positions of `s`: by score, ties by position.
This is the stable ascending argsort (see the modelling note above). -/
def argRel (s : List ℚ) (i j : ℕ) : Prop :=
  s.getD i 0 < s.getD j 0 ∨ (s.getD i 0 = s.getD j 0 ∧ i ≤ j)

instance (s : List ℚ) : DecidableRel (argRel s) := fun i j =>
  inferInstanceAs (Decidable (s.getD i 0 < s.getD j 0 ∨ (s.getD i 0 = s.getD j 0 ∧ i ≤ j)))

instance (s : List ℚ) : IsTotal ℕ (argRel s) := by
  constructor
  intro i j
  rcases lt_trichotomy (s.getD i 0) (s.getD j 0) with h | h | h
  · exact Or.inl (Or.inl h)
  · rcases Nat.le_total i j with hij | hij
    · exact Or.inl (Or.inr ⟨h, hij⟩)
    · exact Or.inr (Or.inr ⟨h.symm, hij⟩)
  · exact Or.inr (Or.inl h)

instance (s : List ℚ) : IsTrans ℕ (argRel s) := by
  constructor
  intro a b c hab hbc
  rcases hab with h1 | ⟨h1, h1'⟩
  · rcases hbc with h2 | ⟨h2, _⟩
    · exact Or.inl (h1.trans h2)
    · exact Or.inl (h2 ▸ h1)
  · rcases hbc with h2 | ⟨h2, h2'⟩
    · exact Or.inl (h1 ▸ h2)
    · exact Or.inr ⟨h1.trans h2, h1'.trans h2'⟩

/-- `np.argsort(s)` as a stable ascending argsort. -/
def argsortAsc (s : List ℚ) : List ℕ :=
  List.insertionSort (argRel s) (List.range s.length)

/-- `np.argsort(final_scores)[::-1][:top_k]` (src/hybrid_search.py line 148,
src/baseline_search.py line 89). -/
def topIndices (s : List ℚ) (topk : ℕ) : List ℕ :=
  (argsortAsc s).reverse.take topk

/-- The per-result score record (src/hybrid_search.py lines 152-157). -/
structure ScoreBreakdown where
  final : ℚ
  semantic : ℚ
  keyword : ℚ
  component : ℚ
deriving DecidableEq

/-- The result-building loop of src/hybrid_search.py lines 150-158, with
every array access `Option`-guarded to model `IndexError`. -/
def buildResults (circuits : List Circuit) (final sem kw comp : List ℚ) :
    List ℕ → Option (List (ℕ × ScoreBreakdown × Circuit))
  | [] => some []
  | idx :: rest => do
    let f ← final[idx]?
    let s ← sem[idx]?
    let k ← kw[idx]?
    let c ← comp[idx]?
    let circ ← circuits[idx]?
    let tail ← buildResults circuits final sem kw comp rest
    pure ((idx, ScoreBreakdown.mk f s k c, circ) :: tail)

/-- The entry built for position `idx` when every access is in range. -/
def resultAt (circuits : List Circuit) (final sem kw comp : List ℚ) (idx : ℕ) :
    ℕ × ScoreBreakdown × Circuit :=
  (idx,
   ScoreBreakdown.mk (final.getD idx 0) (sem.getD idx 0) (kw.getD idx 0) (comp.getD idx 0),
   circuits.getD idx (Circuit.mk "" []))

/-- `HybridSearch.search` (src/hybrid_search.py lines 112-160).  `qvec` is
the encoded query (external model) and `bm25` the BM25 oracle's scores over
the valid subset for the tokenized query. -/
def hybridSearch (st : HybridState) (query : String) (qvec : List ℚ) (bm25 : List ℚ)
    (topk : ℕ) : Option (List (ℕ × ScoreBreakdown × Circuit)) := do
  let sem := semanticScores st qvec
  let kw := keywordScoresFull st query bm25
  let comp := componentScores st query
  let final ← finalScores sem kw comp
  buildResults st.circuits final sem kw comp (topIndices final topk)

/-- The normalization exactly as the fusion claim words it: divide by the
maximum when it is positive, zero otherwise. -/
def claimNormalizedLex (bm25 : List ℚ) : List ℚ :=
  if 0 < listMax bm25 then bm25.map fun s => s / listMax bm25
  else List.replicate bm25.length 0

/-- `BaselineSearch.search` (src/baseline_search.py lines 77-97): BM25-only
ranking dropping non-positive scores.  `scores` is the BM25 oracle's output
over the full baseline corpus (one score per circuit). -/
def baselineSearch (circuits : List Circuit) (query : String) (scores : List ℚ)
    (topk : ℕ) : List (ℕ × ℚ × Circuit) :=
  if (tokenize query).isEmpty then []
  else (topIndices scores topk).filterMap fun idx =>
    if 0 < scores.getD idx 0 then
      some (idx, scores.getD idx 0, circuits.getD idx (Circuit.mk "" []))
    else none


/-! ## Helper lemmas -/

theorem getD_replicate_zero (n j : ℕ) : (List.replicate n (0 : ℚ)).getD j 0 = 0 := by
  rcases lt_or_ge j n with h | h
  · rw [List.getD_eq_getElem _ _ (by simpa using h), List.getElem_replicate]
  · rw [List.getD_eq_default _ _ (by simpa using h)]

theorem foldl_set_length (pairs : List (ℕ × ℚ)) (acc : List ℚ) :
    (pairs.foldl (fun a p => a.set p.1 p.2) acc).length = acc.length := by
  induction pairs generalizing acc with
  | nil => rfl
  | cons p ps ih => simpa [List.foldl_cons] using (ih (acc.set p.1 p.2)).trans (by simp)

theorem scatter_length (n : ℕ) (ps : List ℕ) (vs : List ℚ) :
    (scatter n ps vs).length = n := by
  unfold scatter
  rw [foldl_set_length]
  simp

theorem foldl_set_getD_not_mem (pairs : List (ℕ × ℚ)) (acc : List ℚ) (j : ℕ)
    (h : ∀ p ∈ pairs, p.1 ≠ j) :
    (pairs.foldl (fun a p => a.set p.1 p.2) acc).getD j 0 = acc.getD j 0 := by
  induction pairs generalizing acc with
  | nil => rfl
  | cons p ps ih =>
    rw [List.foldl_cons, ih _ (fun q hq => h q (List.mem_cons_of_mem _ hq))]
    simp only [List.getD_eq_getElem?_getD]
    rw [List.getElem?_set_ne (h p (List.mem_cons_self _ _))]

theorem scatter_getD_not_mem (n : ℕ) (ps : List ℕ) (vs : List ℚ) (j : ℕ)
    (h : j ∉ ps) : (scatter n ps vs).getD j 0 = 0 := by
  unfold scatter
  rw [foldl_set_getD_not_mem]
  · exact getD_replicate_zero n j
  · intro p hp hpj
    exact h (hpj ▸ (List.of_mem_zip hp).1)

theorem foldl_set_zero_pairs (pairs : List (ℕ × ℚ)) (n : ℕ)
    (h : ∀ p ∈ pairs, p.2 = 0) :
    pairs.foldl (fun a p => a.set p.1 p.2) (List.replicate n 0) = List.replicate n 0 := by
  induction pairs with
  | nil => rfl
  | cons p ps ih =>
    rw [List.foldl_cons, h p (List.mem_cons_self _ _), List.set_replicate_self,
      ih (fun q hq => h q (List.mem_cons_of_mem _ hq))]

theorem scatter_zeros (n : ℕ) (ps : List ℕ) (k : ℕ) :
    scatter n ps (List.replicate k 0) = List.replicate n 0 := by
  unfold scatter
  exact foldl_set_zero_pairs _ n fun p hp => List.eq_of_mem_replicate (List.of_mem_zip hp).2

theorem mem_validIndices (circuits : List Circuit) (i : ℕ) :
    i ∈ validIndices circuits ↔
      i < circuits.length ∧
        isValidText ((circuits.getD i (Circuit.mk "" [])).embedding_text) = true := by
  simp [validIndices, List.mem_filter, List.mem_range]

theorem getD_zipWith (f : ℚ → ℚ → ℚ) (a b : List ℚ) (i : ℕ)
    (ha : i < a.length) (hb : i < b.length) :
    (List.zipWith f a b).getD i 0 = f (a.getD i 0) (b.getD i 0) := by
  rw [List.getD_eq_getElem _ _ (by simpa [List.length_zipWith] using ⟨ha, hb⟩),
    List.getD_eq_getElem _ _ ha, List.getD_eq_getElem _ _ hb, List.getElem_zipWith]

theorem bcast2_same (f : ℚ → ℚ → ℚ) (a b : List ℚ) (h : a.length = b.length) :
    bcast2 f a b = some (List.zipWith f a b) := by
  unfold bcast2
  rw [if_pos h]

theorem finalScores_eq (sem kw comp : List ℚ) (n : ℕ)
    (hs : sem.length = n) (hk : kw.length = n) (hc : comp.length = n) :
    ∃ final, finalScores sem kw comp = some final ∧ final.length = n ∧
      ∀ i, i < n → final.getD i 0 =
        (9/20) * sem.getD i 0 + (9/20) * kw.getD i 0 + (1/10) * comp.getD i 0 := by
  have hzw : (List.zipWith (fun x y => (9/20) * x + (9/20) * y) sem kw).length = n := by
    simp [List.length_zipWith, hs, hk]
  refine ⟨List.zipWith (fun x y => x + (1/10) * y)
    (List.zipWith (fun x y => (9/20) * x + (9/20) * y) sem kw) comp, ?_, ?_, ?_⟩
  · unfold finalScores
    rw [bcast2_same _ _ _ (hs.trans hk.symm), Option.some_bind,
      bcast2_same _ _ _ (hzw.trans hc.symm)]
  · simp [List.length_zipWith, hzw, hc]
  · intro i hi
    rw [getD_zipWith _ _ _ _ (by omega) (by omega),
      getD_zipWith _ _ _ _ (by omega) (by omega)]

theorem argsortAsc_perm (s : List ℚ) :
    List.Perm (argsortAsc s) (List.range s.length) :=
  List.perm_insertionSort _ _

theorem argsortAsc_length (s : List ℚ) : (argsortAsc s).length = s.length := by
  simpa using (argsortAsc_perm s).length_eq

theorem mem_argsortAsc (s : List ℚ) (i : ℕ) : i ∈ argsortAsc s ↔ i < s.length := by
  rw [(argsortAsc_perm s).mem_iff, List.mem_range]

theorem argsortAsc_nodup (s : List ℚ) : (argsortAsc s).Nodup :=
  (argsortAsc_perm s).nodup_iff.2 (List.nodup_range _)

theorem argsortAsc_sorted (s : List ℚ) : List.Sorted (argRel s) (argsortAsc s) :=
  List.sorted_insertionSort _ _

theorem topIndices_length (s : List ℚ) (topk : ℕ) :
    (topIndices s topk).length = min topk s.length := by
  unfold topIndices
  rw [List.length_take, List.length_reverse, argsortAsc_length]

theorem mem_topIndices (s : List ℚ) (topk i : ℕ) (h : i ∈ topIndices s topk) :
    i < s.length := by
  unfold topIndices at h
  exact (mem_argsortAsc s i).1 (List.mem_reverse.1 (List.mem_of_mem_take h))

theorem topIndices_sorted_le (s : List ℚ) (topk : ℕ) :
    (topIndices s topk).Pairwise fun i j => s.getD j 0 ≤ s.getD i 0 := by
  have hsorted : (argsortAsc s).Pairwise (argRel s) := argsortAsc_sorted s
  have hrev : (argsortAsc s).reverse.Pairwise (flip (argRel s)) :=
    List.pairwise_reverse.2 (by simpa [flip] using hsorted)
  refine (hrev.sublist (List.take_sublist topk _)).imp ?_
  intro i j hij
  rcases hij with h | ⟨h, -⟩
  · exact le_of_lt h
  · exact le_of_eq h

theorem semanticScores_length (st : HybridState) (qvec : List ℚ) :
    (semanticScores st qvec).length = st.embeddings.length := by
  simp [semanticScores]

theorem componentScores_length (st : HybridState) (query : String) :
    (componentScores st query).length = st.circuits.length := by
  simp [componentScores]

theorem keywordScoresFull_length (st : HybridState) (query : String) (bm25 : List ℚ) :
    (keywordScoresFull st query bm25).length = st.circuits.length :=
  scatter_length _ _ _

theorem getElem?_eq_some_getD {α : Type} (l : List α) (d : α) (i : ℕ)
    (h : i < l.length) : l[i]? = some (l.getD i d) := by
  rw [List.getElem?_eq_getElem h, List.getD_eq_getElem _ _ h]

theorem buildResults_eq (circuits : List Circuit) (final sem kw comp : List ℚ)
    (idxs : List ℕ) (n : ℕ) (hcirc : circuits.length = n) (hf : final.length = n)
    (hs : sem.length = n) (hk : kw.length = n) (hc : comp.length = n)
    (hidx : ∀ i ∈ idxs, i < n) :
    buildResults circuits final sem kw comp idxs =
      some (idxs.map (resultAt circuits final sem kw comp)) := by
  induction idxs with
  | nil => rfl
  | cons idx rest ih =>
    have h0 : idx < n := hidx idx (List.mem_cons_self _ _)
    rw [buildResults, List.map_cons,
      ih (fun i hi => hidx i (List.mem_cons_of_mem _ hi)),
      getElem?_eq_some_getD final 0 idx (by omega),
      getElem?_eq_some_getD sem 0 idx (by omega),
      getElem?_eq_some_getD kw 0 idx (by omega),
      getElem?_eq_some_getD comp 0 idx (by omega),
      getElem?_eq_some_getD circuits (Circuit.mk "" []) idx (by omega)]
    rfl

theorem hybridSearch_some (st : HybridState) (query : String) (qvec : List ℚ)
    (bm25 : List ℚ) (topk : ℕ) (h : st.embeddings.length = st.circuits.length) :
    ∃ final,
      finalScores (semanticScores st qvec) (keywordScoresFull st query bm25)
          (componentScores st query) = some final ∧
      final.length = st.circuits.length ∧
      (∀ i, i < st.circuits.length → final.getD i 0 =
        (9/20) * (semanticScores st qvec).getD i 0 +
        (9/20) * (keywordScoresFull st query bm25).getD i 0 +
        (1/10) * (componentScores st query).getD i 0) ∧
      hybridSearch st query qvec bm25 topk =
        some ((topIndices final topk).map
          (resultAt st.circuits final (semanticScores st qvec)
            (keywordScoresFull st query bm25) (componentScores st query))) := by
  obtain ⟨final, hfin, hlen, hform⟩ := finalScores_eq
    (semanticScores st qvec) (keywordScoresFull st query bm25) (componentScores st query)
    st.circuits.length ((semanticScores_length st qvec).trans h)
    (keywordScoresFull_length st query bm25) (componentScores_length st query)
  refine ⟨final, hfin, hlen, hform, ?_⟩
  rw [hybridSearch, hfin]
  exact buildResults_eq _ _ _ _ _ _ st.circuits.length rfl hlen
    ((semanticScores_length st qvec).trans h)
    (keywordScoresFull_length st query bm25) (componentScores_length st query)
    (fun i hi => hlen ▸ mem_topIndices final topk i hi)

/-! ## Claim theorems -/

/-- C10: for every query and every `top_k ≥ 1`, hybrid-mode search returns
exactly `min(top_k, corpus length)` results — no result is ever filtered
out for a zero or negative final score. -/
theorem claim_c10_hybrid_result_count (circuits : List Circuit)
    (embeddings : List (List ℚ)) (query : String) (qvec bm25 : List ℚ) (topk : ℕ)
    (h : embeddings.length = circuits.length) (_htop : 1 ≤ topk) :
    ∃ res, hybridSearch (hybridInit circuits embeddings) query qvec bm25 topk = some res ∧
      res.length = min topk circuits.length := by
  obtain ⟨final, _, hlen, _, hsearch⟩ :=
    hybridSearch_some (hybridInit circuits embeddings) query qvec bm25 topk h
  exact ⟨_, hsearch, by rw [List.length_map, topIndices_length, hlen]; rfl⟩

/-- C10 witness at a concrete engine state. -/
theorem claim_c10_hybrid_result_count_witness :
    ([[(1 : ℚ)], [1]] : List (List ℚ)).length = ([Circuit.mk "" [], Circuit.mk "" []]).length ∧
    1 ≤ 5 ∧
    ∃ res, hybridSearch (hybridInit [Circuit.mk "" [], Circuit.mk "" []] [[1], [1]])
        "adder" [1] [2] 5 = some res ∧ res.length = min 5 2 :=
  ⟨by decide, by decide,
    claim_c10_hybrid_result_count [Circuit.mk "" [], Circuit.mk "" []] [[1], [1]]
      "adder" [1] [2] 5 (by decide) (by decide)⟩

/-- C2 counterexample: a loadable two-document corpus (both texts valid, so
the BM25 index builds and at this size numpy's default sort runs its stable
insertion sort) in which the two final scores are exactly equal, yet dense
position 1 comes back *before* dense position 0, refuting the claimed
smaller-position-first tie order. -/
theorem claim_c2_counterexample :
    hybridLoad [Circuit.mk "plain demo circuit" [], Circuit.mk "plain demo circuit" []] [[1], [1]] =
      some (hybridInit [Circuit.mk "plain demo circuit" [], Circuit.mk "plain demo circuit" []] [[1], [1]]) ∧
    (hybridSearch (hybridInit [Circuit.mk "plain demo circuit" [], Circuit.mk "plain demo circuit" []] [[1], [1]]) "!" [1] [0, 0] 2).map
        (List.map fun r => r.1) = some [1, 0] ∧
    (((hybridSearch (hybridInit [Circuit.mk "plain demo circuit" [], Circuit.mk "plain demo circuit" []] [[1], [1]]) "!" [1] [0, 0] 2).getD
        []).map fun r => r.2.1.final).getD 0 0 =
      (((hybridSearch (hybridInit [Circuit.mk "plain demo circuit" [], Circuit.mk "plain demo circuit" []] [[1], [1]]) "!" [1] [0, 0] 2).getD
        []).map fun r => r.2.1.final).getD 1 0 := by
  obtain ⟨final, hfin, hlen, hform, hsearch⟩ :=
    hybridSearch_some (hybridInit [Circuit.mk "plain demo circuit" [], Circuit.mk "plain demo circuit" []] [[1], [1]]) "!" [1] [0, 0] 2 rfl
  have hl2 : final.length = 2 := hlen
  have hf01 : final.getD 0 0 = final.getD 1 0 := by
    rw [hform 0 (by decide), hform 1 (by decide)]
    rfl
  have harg : argRel final 0 1 := Or.inr ⟨hf01, by decide⟩
  have htop : topIndices final 2 = [1, 0] := by
    unfold topIndices argsortAsc
    rw [hl2]
    have hr : List.range 2 = [0, 1] := rfl
    rw [hr]
    simp only [List.insertionSort, List.orderedInsert]
    rw [if_pos harg]
    rfl
  rw [hsearch, htop]
  exact ⟨rfl, rfl, hf01.symm⟩

/-- C2 amended: the hybrid ranking is sorted by final score in
non-increasing order and truncated to `top_k`; no order among documents
with exactly equal final scores is asserted — numpy's default argsort is
unstable, so the program guarantees none — and the claimed
smaller-dense-position-first tie order in particular fails (see the
counterexample). -/
theorem claim_c2_amended_ordering (circuits : List Circuit)
    (embeddings : List (List ℚ)) (query : String) (qvec bm25 : List ℚ) (topk : ℕ)
    (h : embeddings.length = circuits.length) :
    ∃ res, hybridSearch (hybridInit circuits embeddings) query qvec bm25 topk = some res ∧
      res.length = min topk circuits.length ∧
      res.Pairwise fun x y : ℕ × ScoreBreakdown × Circuit => y.2.1.final ≤ x.2.1.final := by
  obtain ⟨final, _, hlen, _, hsearch⟩ :=
    hybridSearch_some (hybridInit circuits embeddings) query qvec bm25 topk h
  refine ⟨_, hsearch, by rw [List.length_map, topIndices_length, hlen]; rfl, ?_⟩
  rw [List.pairwise_map]
  exact (topIndices_sorted_le final topk).imp fun hij => hij

/-- C2 amended witness at a concrete loadable engine state. -/
theorem claim_c2_amended_ordering_witness :
    ([[(1 : ℚ)], [1]] : List (List ℚ)).length =
      ([Circuit.mk "plain demo circuit" [], Circuit.mk "plain demo circuit" []]).length ∧
    ∃ res, hybridSearch (hybridInit [Circuit.mk "plain demo circuit" [], Circuit.mk "plain demo circuit" []] [[1], [1]])
        "!" [1] [0, 0] 2 = some res ∧ res.length = min 2 2 ∧
      res.Pairwise fun x y : ℕ × ScoreBreakdown × Circuit => y.2.1.final ≤ x.2.1.final :=
  ⟨by decide,
    claim_c2_amended_ordering [Circuit.mk "plain demo circuit" [], Circuit.mk "plain demo circuit" []] [[1], [1]]
      "!" [1] [0, 0] 2 (by decide)⟩

/-- C5: the full-corpus lexical score array has the full corpus length, and
every position whose document fails the valid-subset test holds exactly 0. -/
theorem claim_c5_lexical_scatter (circuits : List Circuit)
    (embeddings : List (List ℚ)) (query : String) (bm25 : List ℚ) :
    (keywordScoresFull (hybridInit circuits embeddings) query bm25).length = circuits.length ∧
    ∀ j, j < circuits.length →
      isValidText ((circuits.getD j (Circuit.mk "" [])).embedding_text) = false →
      (keywordScoresFull (hybridInit circuits embeddings) query bm25).getD j 0 = 0 := by
  refine ⟨keywordScoresFull_length _ _ _, ?_⟩
  intro j hj hvalid
  apply scatter_getD_not_mem
  intro hmem
  have h2 := ((mem_validIndices circuits j).1 hmem).2
  rw [hvalid] at h2
  exact Bool.noConfusion h2

/-- C5 witness at a concrete corpus (document 0 has the sentinel text). -/
theorem claim_c5_lexical_scatter_witness :
    (keywordScoresFull
        (hybridInit [Circuit.mk "Empty circuit" [], Circuit.mk "a long enough text" []] [])
        "adder" [3]).length = 2 ∧
    (0 : ℕ) < 2 ∧
    isValidText ((([Circuit.mk "Empty circuit" [], Circuit.mk "a long enough text" []]).getD 0
      (Circuit.mk "" [])).embedding_text) = false ∧
    (keywordScoresFull
        (hybridInit [Circuit.mk "Empty circuit" [], Circuit.mk "a long enough text" []] [])
        "adder" [3]).getD 0 0 = 0 :=
  ⟨(claim_c5_lexical_scatter _ [] "adder" [3]).1, by decide, by decide,
    (claim_c5_lexical_scatter _ [] "adder" [3]).2 0 (by decide) (by decide)⟩


/-- C4: the structural score is exactly one of `0`, `1/2`, `1`, with the
three cases as specified: `1` when a match-set component is present, `0`
when none is but the opposite is, `1/2` otherwise and always without
intent. -/
theorem claim_c4_structural_score (circuit : Circuit) (intent : Option Intent) :
    (calcComponentScore circuit intent = 0 ∨ calcComponentScore circuit intent = 1/2 ∨
      calcComponentScore circuit intent = 1) ∧
    (intent = none → calcComponentScore circuit intent = 1/2) ∧
    ∀ ci, intent = some ci →
      ((∃ c ∈ ci.matched, c ∈ circuit.component_breakdown) →
        calcComponentScore circuit intent = 1) ∧
      ((¬∃ c ∈ ci.matched, c ∈ circuit.component_breakdown) →
        (∃ op, ci.opposite = some op ∧ op ∈ circuit.component_breakdown) →
        calcComponentScore circuit intent = 0) ∧
      ((¬∃ c ∈ ci.matched, c ∈ circuit.component_breakdown) →
        (¬∃ op, ci.opposite = some op ∧ op ∈ circuit.component_breakdown) →
        calcComponentScore circuit intent = 1/2) := by
  cases intent with
  | none =>
    exact ⟨Or.inr (Or.inl rfl), fun _ => rfl, fun ci hci => Option.noConfusion hci⟩
  | some ci =>
    have hiff : ((ci.matched.any fun c => circuit.component_breakdown.contains c) = true) ↔
        ∃ c ∈ ci.matched, c ∈ circuit.component_breakdown := by
      rw [List.any_eq_true]
      exact exists_congr fun c => and_congr_right fun _ => List.elem_iff
    by_cases hm : (ci.matched.any fun c => circuit.component_breakdown.contains c) = true
    · have hv : calcComponentScore circuit (some ci) = 1 := by
        simp only [calcComponentScore]
        rw [if_pos hm]
      refine ⟨Or.inr (Or.inr hv), fun h => Option.noConfusion h, fun ci2 hci2 => ?_⟩
      obtain rfl : ci = ci2 := Option.some.inj hci2
      exact ⟨fun _ => hv, fun hno _ => absurd (hiff.1 hm) hno,
        fun hno _ => absurd (hiff.1 hm) hno⟩
    · have hnex : ¬∃ c ∈ ci.matched, c ∈ circuit.component_breakdown :=
        fun he => hm (hiff.2 he)
      cases hop : ci.opposite with
      | none =>
        have hv : calcComponentScore circuit (some ci) = 1/2 := by
          simp only [calcComponentScore]
          rw [if_neg hm, hop]
        refine ⟨Or.inr (Or.inl hv), fun h => Option.noConfusion h, fun ci2 hci2 => ?_⟩
        obtain rfl : ci = ci2 := Option.some.inj hci2
        refine ⟨fun hex => absurd hex hnex, fun _ hop2 => ?_, fun _ _ => hv⟩
        obtain ⟨op, hopeq, -⟩ := hop2
        rw [hop] at hopeq
        exact Option.noConfusion hopeq
      | some op =>
        by_cases hco : circuit.component_breakdown.contains op = true
        · have hv : calcComponentScore circuit (some ci) = 0 := by
            have h1 : calcComponentScore circuit (some ci) =
                if circuit.component_breakdown.contains op = true then 0 else 1/2 := by
              simp only [calcComponentScore]
              rw [if_neg hm, hop]
            rw [h1, if_pos hco]
          refine ⟨Or.inl hv, fun h => Option.noConfusion h, fun ci2 hci2 => ?_⟩
          obtain rfl : ci = ci2 := Option.some.inj hci2
          exact ⟨fun hex => absurd hex hnex, fun _ _ => hv,
            fun _ hnop => absurd ⟨op, hop, List.elem_iff.1 hco⟩ hnop⟩
        · have hv : calcComponentScore circuit (some ci) = 1/2 := by
            have h1 : calcComponentScore circuit (some ci) =
                if circuit.component_breakdown.contains op = true then 0 else 1/2 := by
              simp only [calcComponentScore]
              rw [if_neg hm, hop]
            rw [h1, if_neg hco]
          refine ⟨Or.inr (Or.inl hv), fun h => Option.noConfusion h, fun ci2 hci2 => ?_⟩
          obtain rfl : ci = ci2 := Option.some.inj hci2
          refine ⟨fun hex => absurd hex hnex, fun _ hop2 => ?_, fun _ _ => hv⟩
          obtain ⟨op2, hopeq, hmem⟩ := hop2
          rw [hop] at hopeq
          obtain rfl : op = op2 := Option.some.inj hopeq
          exact absurd (List.elem_iff.2 hmem) hco

/-- C4 witness at concrete documents and intents. -/
theorem claim_c4_structural_score_witness :
    calcComponentScore (Circuit.mk "" []) none = 1/2 ∧
    calcComponentScore (Circuit.mk "" ["Counter"])
      (some (Intent.mk ["Counter"] none)) = 1 ∧
    calcComponentScore (Circuit.mk "" ["Demultiplexer"])
      (some (Intent.mk ["Multiplexer"] (some "Demultiplexer"))) = 0 := by
  refine ⟨(claim_c4_structural_score (Circuit.mk "" []) none).2.1 rfl, ?_, ?_⟩
  · exact (((claim_c4_structural_score (Circuit.mk "" ["Counter"])
      (some (Intent.mk ["Counter"] none))).2.2 _ rfl).1 ⟨"Counter", by decide, by decide⟩)
  · exact (((claim_c4_structural_score (Circuit.mk "" ["Demultiplexer"])
      (some (Intent.mk ["Multiplexer"] (some "Demultiplexer")))).2.2 _ rfl).2.1
      (by decide) ⟨"Demultiplexer", rfl, by decide⟩)

/-- C8: baseline-mode results all carry a strictly positive BM25 score and
the list has length at most `top_k` (non-positive scores are dropped, so it
may be shorter). -/
theorem claim_c8_baseline_positive (circuits : List Circuit) (query : String)
    (scores : List ℚ) (topk : ℕ) :
    (∀ r ∈ baselineSearch circuits query scores topk, 0 < r.2.1) ∧
    (baselineSearch circuits query scores topk).length ≤ topk := by
  unfold baselineSearch
  by_cases h : (tokenize query).isEmpty
  · rw [if_pos h]
    exact ⟨fun r hr => absurd hr (List.not_mem_nil r), by simp⟩
  · rw [if_neg h]
    constructor
    · intro r hr
      obtain ⟨idx, hidx, hr2⟩ := List.mem_filterMap.1 hr
      by_cases hpos : 0 < scores.getD idx 0
      · rw [if_pos hpos] at hr2
        obtain rfl := Option.some.inj hr2
        exact hpos
      · rw [if_neg hpos] at hr2
        exact Option.noConfusion hr2
    · calc ((topIndices scores topk).filterMap _).length
          ≤ (topIndices scores topk).length := List.length_filterMap_le _ _
        _ = min topk scores.length := topIndices_length _ _
        _ ≤ topk := min_le_left _ _

/-- C8 witness at a concrete corpus and score vector. -/
theorem claim_c8_baseline_positive_witness :
    ((0 : ℕ), (3:ℚ), Circuit.mk "" []) ∈ baselineSearch [Circuit.mk "" []] "adder" [3] 1 ∧
    (0:ℚ) < ((0 : ℕ), (3:ℚ), Circuit.mk "" []).2.1 ∧
    (baselineSearch [Circuit.mk "" []] "adder" [3] 1).length ≤ 1 :=
  ⟨by decide,
    (claim_c8_baseline_positive [Circuit.mk "" []] "adder" [3] 1).1 _ (by decide),
    (claim_c8_baseline_positive [Circuit.mk "" []] "adder" [3] 1).2⟩


theorem isPrefixList_self_append (k b : List Char) : isPrefixList k (k ++ b) = true := by
  induction k with
  | nil => rfl
  | cons c cs ih => simp [isPrefixList, ih]

theorem isSubstrList_of_isPrefixList (k s : List Char) (h : isPrefixList k s = true) :
    isSubstrList k s = true := by
  cases s with
  | nil => exact h
  | cons c t => rw [isSubstrList, h, Bool.true_or]

theorem isSubstrList_of_parts (a k b : List Char) :
    isSubstrList k (a ++ (k ++ b)) = true := by
  induction a with
  | nil => exact isSubstrList_of_isPrefixList _ _ (isPrefixList_self_append k b)
  | cons x xs ih => rw [List.cons_append, isSubstrList, ih, Bool.or_true]

theorem isPrefixList_exists (k : List Char) : ∀ s, isPrefixList k s = true →
    ∃ b, s = k ++ b := by
  induction k with
  | nil => exact fun s _ => ⟨s, rfl⟩
  | cons c cs ih =>
    intro s h
    cases s with
    | nil => exact absurd h (by simp [isPrefixList])
    | cons d t =>
      rw [isPrefixList, Bool.and_eq_true] at h
      obtain ⟨b, hb⟩ := ih t h.2
      obtain rfl : c = d := of_decide_eq_true h.1
      exact ⟨b, by rw [hb, List.cons_append]⟩

theorem isSubstrList_exists (k : List Char) : ∀ s, isSubstrList k s = true →
    ∃ a b, s = a ++ (k ++ b) := by
  intro s
  induction s with
  | nil =>
    intro h
    obtain ⟨b, hb⟩ := isPrefixList_exists k [] h
    exact ⟨[], b, hb⟩
  | cons c t ih =>
    intro h
    rw [isSubstrList, Bool.or_eq_true] at h
    rcases h with h | h
    · obtain ⟨b, hb⟩ := isPrefixList_exists k (c :: t) h
      exact ⟨[], b, hb⟩
    · obtain ⟨a, b, hab⟩ := ih h
      exact ⟨c :: a, b, by rw [hab, List.cons_append]⟩

/-- C9: a query whose lowercased text contains "demultiplexer" (or "demux")
triggers the earlier multiplexer/mux rule — match `Multiplexer`, opposite
`Demultiplexer` — because "multiplexer" ("mux") is a substring of
"demultiplexer" ("demux") and the table is scanned in insertion order; a
document listing `Demultiplexer` but not `Multiplexer` then scores `0`. -/
theorem claim_c9_demux_shadowed (query : String) (circuit : Circuit)
    (h : isSubstrList ("demultiplexer".data) (pyLower query.data) = true ∨
         isSubstrList ("demux".data) (pyLower query.data) = true) :
    detectComponentIntent query = some (Intent.mk ["Multiplexer"] (some "Demultiplexer")) ∧
    ("Multiplexer" ∉ circuit.component_breakdown →
     "Demultiplexer" ∈ circuit.component_breakdown →
     calcComponentScore circuit (detectComponentIntent query) = 0) := by
  have hdet : detectComponentIntent query =
      some (Intent.mk ["Multiplexer"] (some "Demultiplexer")) := by
    rcases h with h | h
    · obtain ⟨a, b, hab⟩ := isSubstrList_exists _ _ h
      have hde : ("demultiplexer".data : List Char) = 'd' :: 'e' :: "multiplexer".data := rfl
      have hM : isSubstrList ("multiplexer".data) (pyLower query.data) = true := by
        have hsplit : pyLower query.data =
            (a ++ ['d', 'e']) ++ ("multiplexer".data ++ b) := by
          rw [hab, hde]
          simp
        rw [hsplit]
        exact isSubstrList_of_parts _ _ _
      rw [detectComponentIntent, COMPONENT_KEYWORDS, List.find?_cons_of_pos _ (by exact hM)]
      rfl
    · obtain ⟨a, b, hab⟩ := isSubstrList_exists _ _ h
      have hde : ("demux".data : List Char) = 'd' :: 'e' :: "mux".data := rfl
      have hM : isSubstrList ("mux".data) (pyLower query.data) = true := by
        have hsplit : pyLower query.data =
            (a ++ ['d', 'e']) ++ ("mux".data ++ b) := by
          rw [hab, hde]
          simp
        rw [hsplit]
        exact isSubstrList_of_parts _ _ _
      by_cases h0 : isSubstrList ("multiplexer".data) (pyLower query.data) = true
      · rw [detectComponentIntent, COMPONENT_KEYWORDS, List.find?_cons_of_pos _ (by exact h0)]
        rfl
      · rw [detectComponentIntent, COMPONENT_KEYWORDS,
          List.find?_cons_of_neg _ (by simpa using h0), List.find?_cons_of_pos _ (by exact hM)]
        rfl
  refine ⟨hdet, fun hno hyes => ?_⟩
  rw [hdet]
  have hm : ((["Multiplexer"] : List String).any
      fun c => circuit.component_breakdown.contains c) = false := by
    simp only [List.any_cons, List.any_nil, Bool.or_false]
    exact Bool.not_eq_true _ ▸ fun hc => hno (List.elem_iff.1 hc)
  have h1 : calcComponentScore circuit
      (some (Intent.mk ["Multiplexer"] (some "Demultiplexer"))) =
      if circuit.component_breakdown.contains "Demultiplexer" = true then 0 else 1/2 := by
    simp only [calcComponentScore]
    rw [if_neg (by rw [hm]; exact Bool.false_ne_true)]
  rw [h1, if_pos (List.elem_iff.2 hyes)]

/-- C9 witness: the query "demux selector" against a document with only a
demultiplexer. -/
theorem claim_c9_demux_shadowed_witness :
    (isSubstrList ("demux".data) (pyLower ("demux selector".data)) = true) ∧
    detectComponentIntent "demux selector" =
      some (Intent.mk ["Multiplexer"] (some "Demultiplexer")) ∧
    calcComponentScore (Circuit.mk "" ["Demultiplexer"])
      (detectComponentIntent "demux selector") = 0 := by
  refine ⟨by decide, ?_, ?_⟩
  · exact (claim_c9_demux_shadowed "demux selector" (Circuit.mk "" ["Demultiplexer"])
      (Or.inr (by decide))).1
  · exact (claim_c9_demux_shadowed "demux selector" (Circuit.mk "" ["Demultiplexer"])
      (Or.inr (by decide))).2 (by decide) (by decide)


theorem le_foldl_max (xs : List ℚ) : ∀ a : ℚ,
    a ≤ xs.foldl max a ∧ ∀ x ∈ xs, x ≤ xs.foldl max a := by
  induction xs with
  | nil =>
    intro a
    exact ⟨le_refl a, by simp⟩
  | cons y ys ih =>
    intro a
    refine ⟨le_trans (le_max_left a y) (ih (max a y)).1, ?_⟩
    intro x hx
    rcases List.mem_cons.1 hx with rfl | hx
    · exact le_trans (le_max_right a x) (ih (max a x)).1
    · exact (ih (max a y)).2 x hx

theorem le_listMax (l : List ℚ) (x : ℚ) (h : x ∈ l) : x ≤ listMax l := by
  cases l with
  | nil => cases h
  | cons y ys =>
    rcases List.mem_cons.1 h with rfl | h
    · exact (le_foldl_max ys x).1
    · exact (le_foldl_max ys y).2 x h

theorem eq_zeros_of_nonneg_of_max_nonpos (l : List ℚ)
    (hnn : ∀ x ∈ l, (0:ℚ) ≤ x) (hmax : ¬ (0 < listMax l)) :
    l = List.replicate l.length 0 :=
  List.eq_replicate_of_mem fun x hx =>
    le_antisymm (le_trans (le_listMax l x hx) (not_lt.1 hmax)) (hnn x hx)

/-- C1: every hybrid result's final score is
`0.45 * semantic + 0.45 * keyword + 0.10 * component`, the keyword channel
is the BM25 scores divided by their positive maximum (and zero otherwise,
given the spec's non-negativity contract for BM25 scores), and a document
with zero keyword and zero component score has `final = 0.45 * semantic`. -/
theorem claim_c1_fusion_formula (circuits : List Circuit)
    (embeddings : List (List ℚ)) (query : String) (qvec bm25 : List ℚ) (topk : ℕ)
    (h : embeddings.length = circuits.length)
    (hnn : ∀ x ∈ bm25, (0:ℚ) ≤ x) :
    (keywordScoresValid (hybridInit circuits embeddings) query bm25 =
      if (tokenize query).isEmpty then
        List.replicate (validIndices circuits).length 0
      else claimNormalizedLex bm25) ∧
    ∃ res, hybridSearch (hybridInit circuits embeddings) query qvec bm25 topk = some res ∧
      ∀ r ∈ res,
        r.2.1.final = (9/20) * r.2.1.semantic + (9/20) * r.2.1.keyword +
          (1/10) * r.2.1.component ∧
        (r.2.1.keyword = 0 → r.2.1.component = 0 →
          r.2.1.final = (9/20) * r.2.1.semantic) := by
  constructor
  · unfold keywordScoresValid claimNormalizedLex
    by_cases hq : (tokenize query).isEmpty
    · rw [if_pos hq, if_pos hq]
      rfl
    · rw [if_neg hq, if_neg hq]
      by_cases hmax : 0 < listMax bm25
      · rw [if_pos hmax, if_pos hmax]
      · rw [if_neg hmax, if_neg hmax]
        exact eq_zeros_of_nonneg_of_max_nonpos bm25 hnn hmax
  · obtain ⟨final, hfin, hlen, hform, hsearch⟩ :=
      hybridSearch_some (hybridInit circuits embeddings) query qvec bm25 topk h
    refine ⟨_, hsearch, ?_⟩
    intro r hr
    obtain ⟨i, hi, rfl⟩ := List.mem_map.1 hr
    have hilt : i < (hybridInit circuits embeddings).circuits.length :=
      hlen ▸ mem_topIndices final topk i hi
    have hf := hform i hilt
    constructor
    · exact hf
    · intro hk hc
      have hk2 : (keywordScoresFull (hybridInit circuits embeddings) query bm25).getD i 0 = 0 := hk
      have hc2 : (componentScores (hybridInit circuits embeddings) query).getD i 0 = 0 := hc
      show final.getD i 0 = (9/20) * (semanticScores (hybridInit circuits embeddings) qvec).getD i 0
      rw [hf, hk2, hc2, mul_zero, add_zero, mul_zero, add_zero]

/-- C1 witness at a concrete engine state and query. -/
theorem claim_c1_fusion_formula_witness :
    ([[(1:ℚ)]] : List (List ℚ)).length = ([Circuit.mk "" []]).length ∧
    (∀ x ∈ ([3] : List ℚ), (0:ℚ) ≤ x) ∧
    ((keywordScoresValid (hybridInit [Circuit.mk "" []] [[1]]) "adder" [3] =
      if (tokenize "adder").isEmpty then
        List.replicate (validIndices [Circuit.mk "" []]).length 0
      else claimNormalizedLex [3]) ∧
    ∃ res, hybridSearch (hybridInit [Circuit.mk "" []] [[1]]) "adder" [1] [3] 2 = some res ∧
      ∀ r ∈ res,
        r.2.1.final = (9/20) * r.2.1.semantic + (9/20) * r.2.1.keyword +
          (1/10) * r.2.1.component ∧
        (r.2.1.keyword = 0 → r.2.1.component = 0 →
          r.2.1.final = (9/20) * r.2.1.semantic)) :=
  ⟨by decide, by decide,
    claim_c1_fusion_formula [Circuit.mk "" []] [[1]] "adder" [1] [3] 2
      (by decide) (by decide)⟩


theorem charOfNat_toNat (n : ℕ) (h : n.isValidChar) : (Char.ofNat n).toNat = n := by
  simp [Char.ofNat, h, Char.ofNatAux, Char.toNat, UInt32.toNat, BitVec.toNat_ofNatLt]

theorem toLower_not_upper (c : Char) : (Char.toLower c).isUpper = false := by
  unfold Char.toLower Char.isUpper
  by_cases h : c.toNat ≥ 65 ∧ c.toNat ≤ 90
  · have hv : (c.toNat + 32).isValidChar := by
      constructor
      omega
    have h2 : (Char.ofNat (c.toNat + 32)).toNat = c.toNat + 32 := charOfNat_toNat _ hv
    simp only [h, and_self, if_true]
    rw [Bool.and_eq_false_iff]
    right
    simp only [decide_eq_false_iff_not]
    show ¬ ((Char.ofNat (c.toNat + 32)).val.toNat ≤ (90 : UInt32).toNat)
    have h3 : (Char.ofNat (c.toNat + 32)).val.toNat = c.toNat + 32 := h2
    rw [h3]
    show ¬ (c.toNat + 32 ≤ 90)
    omega
  · simp only [h, if_false]
    rw [Bool.and_eq_false_iff]
    by_cases h65 : c.toNat ≥ 65
    · right
      simp only [decide_eq_false_iff_not]
      show ¬ (c.val.toNat ≤ (90 : UInt32).toNat)
      show ¬ (c.toNat ≤ 90)
      omega
    · left
      simp only [decide_eq_false_iff_not]
      show ¬ ((65 : UInt32).toNat ≤ c.val.toNat)
      show ¬ (65 ≤ c.toNat)
      omega

theorem word_not_space (c : Char) (h : pyIsWordChar c = true) : pyIsSpace c = false := by
  by_contra hs
  rw [Bool.not_eq_false] at hs
  unfold pyIsSpace at hs
  simp only [Bool.or_eq_true, decide_eq_true_eq] at hs
  rcases hs with ((((rfl | rfl) | rfl) | rfl) | rfl) | rfl <;> exact absurd h (by decide)

theorem normChar_word (c : Char) (h : pyIsWordChar c = true) : normChar c = c := by
  simp [normChar, h]

theorem splitWsAux_long_token (cs : List Char) : ∀ acc : List Char, 2 ≤ acc.length →
    ∃ t ∈ splitWsAux cs acc, 2 ≤ t.length := by
  induction cs with
  | nil =>
    intro acc hacc
    have hne : acc.isEmpty = false := by
      cases acc with
      | nil => simp at hacc
      | cons _ _ => rfl
    rw [splitWsAux, if_neg (by rw [hne]; exact Bool.false_ne_true)]
    exact ⟨acc.reverse, List.mem_singleton.2 rfl, by simpa using hacc⟩
  | cons d ds ih =>
    intro acc hacc
    have hne : acc.isEmpty = false := by
      cases acc with
      | nil => simp at hacc
      | cons _ _ => rfl
    rw [splitWsAux]
    by_cases hsp : pyIsSpace d = true
    · rw [if_pos hsp, if_neg (by rw [hne]; exact Bool.false_ne_true)]
      exact ⟨acc.reverse, List.mem_cons_self _ _, by simpa using hacc⟩
    · rw [if_neg hsp]
      exact ih (d :: acc) (Nat.le_succ_of_le hacc)

theorem splitWsAux_adjacent (c1 c2 : Char) (h1 : pyIsSpace c1 = false)
    (h2 : pyIsSpace c2 = false) :
    ∀ (pre post acc : List Char),
      ∃ t ∈ splitWsAux (pre ++ c1 :: c2 :: post) acc, 2 ≤ t.length := by
  intro pre
  induction pre with
  | nil =>
    intro post acc
    rw [List.nil_append, splitWsAux, if_neg (by rw [h1]; exact Bool.false_ne_true),
      splitWsAux, if_neg (by rw [h2]; exact Bool.false_ne_true)]
    exact splitWsAux_long_token post (c2 :: c1 :: acc) (by simp)
  | cons x xs ih =>
    intro post acc
    rw [List.cons_append, splitWsAux]
    by_cases hsp : pyIsSpace x = true
    · rw [if_pos hsp]
      by_cases hacc : acc.isEmpty = true
      · rw [if_pos hacc]
        exact ih post []
      · rw [if_neg hacc]
        obtain ⟨t, ht, hl⟩ := ih post []
        exact ⟨t, List.mem_cons_of_mem _ ht, hl⟩
    · rw [if_neg hsp]
      exact ih post (x :: acc)

theorem tokenize_ne_nil (q : String) (a b : List Char) (c1 c2 : Char)
    (hl : pyLower q.data = a ++ c1 :: c2 :: b)
    (h1 : pyIsWordChar c1 = true) (h2 : pyIsWordChar c2 = true) :
    tokenize q ≠ [] := by
  have hq : q.data ≠ [] := by
    intro he
    rw [he] at hl
    cases a <;> simp [pyLower] at hl
  rw [tokenize, if_neg hq]
  intro hmap
  rw [List.map_eq_nil_iff] at hmap
  have hmapped : (q.data.map Char.toLower).map normChar =
      a.map normChar ++ c1 :: c2 :: b.map normChar := by
    show (pyLower q.data).map normChar = _
    rw [hl, List.map_append, List.map_cons, List.map_cons,
      normChar_word c1 h1, normChar_word c2 h2]
  obtain ⟨t, ht, hlt⟩ := splitWsAux_adjacent c1 c2 (word_not_space c1 h1)
    (word_not_space c2 h2) (a.map normChar) (b.map normChar) []
  have htk : t ∈ tokenizeChars q.data := by
    unfold tokenizeChars splitWs
    rw [hmapped]
    exact List.mem_filter.2 ⟨ht, decide_eq_true (by omega)⟩
  rw [hmap] at htk
  cases htk

theorem detect_none_of_tokenize_nil (q : String) (h : tokenize q = []) :
    detectComponentIntent q = none := by
  unfold detectComponentIntent
  cases hf : COMPONENT_KEYWORDS.find? fun kv => isSubstrList kv.1.data (pyLower q.data) with
  | none => rfl
  | some kv =>
    exfalso
    have hp : isSubstrList kv.1.data (pyLower q.data) = true := by
      have hgen := List.find?_some hf
      exact hgen
    have hkmem : kv ∈ COMPONENT_KEYWORDS := List.mem_of_find?_eq_some hf
    have hcases : ∃ c1 c2 r, kv.1.data = c1 :: c2 :: r ∧
        pyIsWordChar c1 = true ∧ pyIsWordChar c2 = true := by
      fin_cases hkmem <;> exact ⟨_, _, _, rfl, by decide, by decide⟩
    obtain ⟨c1, c2, r, hd, hw1, hw2⟩ := hcases
    obtain ⟨a, b, hab⟩ := isSubstrList_exists _ _ hp
    rw [hd] at hab
    have hl2 : pyLower q.data = a ++ c1 :: c2 :: (r ++ b) := by
      rw [hab]
      simp
    exact tokenize_ne_nil q a (r ++ b) c1 c2 hl2 hw1 hw2 h


/-- C7: a query that tokenizes to nothing is not an error: the lexical
channel is uniformly zero, intent detection returns no intent, the
structural score is `1/2` everywhere, the semantic channel still covers the
full corpus, and a full ranking is returned. -/
theorem claim_c7_empty_query (circuits : List Circuit)
    (embeddings : List (List ℚ)) (query : String) (qvec bm25 : List ℚ) (topk : ℕ)
    (h : embeddings.length = circuits.length)
    (htok : tokenize query = []) :
    keywordScoresFull (hybridInit circuits embeddings) query bm25 =
      List.replicate circuits.length 0 ∧
    detectComponentIntent query = none ∧
    componentScores (hybridInit circuits embeddings) query =
      List.replicate circuits.length (1/2) ∧
    (semanticScores (hybridInit circuits embeddings) qvec).length = circuits.length ∧
    ∃ res, hybridSearch (hybridInit circuits embeddings) query qvec bm25 topk = some res ∧
      res.length = min topk circuits.length := by
  have hdet := detect_none_of_tokenize_nil query htok
  refine ⟨?_, hdet, ?_, ?_, ?_⟩
  · unfold keywordScoresFull keywordScoresValid
    rw [if_pos (by rw [htok]; rfl)]
    exact scatter_zeros _ _ _
  · unfold componentScores
    rw [hdet]
    have hlen2 : (List.map (fun c => calcComponentScore c none)
        (hybridInit circuits embeddings).circuits).length = circuits.length := by
      rw [List.length_map]
      rfl
    rw [← hlen2]
    exact List.eq_replicate_of_mem fun b hb => by
      obtain ⟨c, -, rfl⟩ := List.mem_map.1 hb
      rfl
  · exact (semanticScores_length _ _).trans h
  · obtain ⟨final, _, hlen, _, hsearch⟩ :=
      hybridSearch_some (hybridInit circuits embeddings) query qvec bm25 topk h
    exact ⟨_, hsearch, by rw [List.length_map, topIndices_length, hlen]; rfl⟩

/-- C7 witness at the query "!". -/
theorem claim_c7_empty_query_witness :
    tokenize "!" = [] ∧
    keywordScoresFull (hybridInit [Circuit.mk "" []] [[1]]) "!" [] =
      List.replicate 1 0 ∧
    detectComponentIntent "!" = none ∧
    componentScores (hybridInit [Circuit.mk "" []] [[1]]) "!" =
      List.replicate 1 (1/2) ∧
    (semanticScores (hybridInit [Circuit.mk "" []] [[1]]) [1]).length = 1 ∧
    ∃ res, hybridSearch (hybridInit [Circuit.mk "" []] [[1]]) "!" [1] [] 3 = some res ∧
      res.length = min 3 1 :=
  ⟨by decide,
    (claim_c7_empty_query [Circuit.mk "" []] [[1]] "!" [1] [] 3 (by decide) (by decide)).1,
    (claim_c7_empty_query [Circuit.mk "" []] [[1]] "!" [1] [] 3 (by decide) (by decide)).2.1,
    (claim_c7_empty_query [Circuit.mk "" []] [[1]] "!" [1] [] 3 (by decide) (by decide)).2.2.1,
    (claim_c7_empty_query [Circuit.mk "" []] [[1]] "!" [1] [] 3 (by decide) (by decide)).2.2.2.1,
    (claim_c7_empty_query [Circuit.mk "" []] [[1]] "!" [1] [] 3 (by decide) (by decide)).2.2.2.2⟩

theorem splitWsAux_chars (P : Char → Prop) :
    ∀ (l acc : List Char), (∀ c ∈ acc, P c) →
      (∀ c ∈ l, pyIsSpace c = false → P c) →
      ∀ t ∈ splitWsAux l acc, ∀ c ∈ t, P c := by
  intro l
  induction l with
  | nil =>
    intro acc hacc _ t ht c hc
    rw [splitWsAux] at ht
    by_cases he : acc.isEmpty = true
    · rw [if_pos he] at ht
      cases ht
    · rw [if_neg he] at ht
      rw [List.mem_singleton] at ht
      subst ht
      exact hacc c (List.mem_reverse.1 hc)
  | cons d ds ih =>
    intro acc hacc hl t ht c hc
    rw [splitWsAux] at ht
    by_cases hsp : pyIsSpace d = true
    · rw [if_pos hsp] at ht
      by_cases he : acc.isEmpty = true
      · rw [if_pos he] at ht
        exact ih [] (fun c hc2 => absurd hc2 (List.not_mem_nil c))
          (fun c hcm hs => hl c (List.mem_cons_of_mem _ hcm) hs) t ht c hc
      · rw [if_neg he] at ht
        rcases List.mem_cons.1 ht with rfl | ht2
        · exact hacc c (List.mem_reverse.1 hc)
        · exact ih [] (fun c hc2 => absurd hc2 (List.not_mem_nil c))
            (fun c hcm hs => hl c (List.mem_cons_of_mem _ hcm) hs) t ht2 c hc
    · rw [if_neg hsp] at ht
      refine ih (d :: acc) ?_ (fun c hcm hs => hl c (List.mem_cons_of_mem _ hcm) hs) t ht c hc
      intro c hc2
      rcases List.mem_cons.1 hc2 with rfl | hc3
      · exact hl c (List.mem_cons_self _ _) (by simpa using hsp)
      · exact hacc c hc3

/-- C6 counterexample: the code keeps underscores (Python `\w` includes
`_`), so `tokenize "x_y"` is `["x_y"]`, while the claimed procedure
(letter/digit/whitespace only) yields `[]`. -/
theorem claim_c6_counterexample :
    tokenize "x_y" = ["x_y"] ∧ tokenizeClaimLetterDigit "x_y" = [] := by
  exact ⟨by decide, by decide⟩

/-- C6 amended: `tokenize` lowercases, replaces every character that is not
a letter, digit, underscore, or whitespace by a space, splits on whitespace
and drops tokens of length `≤ 1`; every produced token has length `≥ 2` and
consists of non-uppercase word characters (letters, digits, or underscore —
so no punctuation other than underscore). -/
theorem claim_c6_amended_tokenizer (s : String) :
    tokenize s = tokenizeAmendedSpec s ∧
    ∀ t ∈ tokenize s, 1 < t.data.length ∧
      ∀ c ∈ t.data, pyIsWordChar c = true ∧ c.isUpper = false := by
  constructor
  · by_cases hq : s.data = []
    · rw [tokenize, if_pos hq]
      unfold tokenizeAmendedSpec
      rw [hq]
      rfl
    · rw [tokenize, if_neg hq]
      unfold tokenizeChars tokenizeAmendedSpec
      rw [show (s.data.map Char.toLower).map normChar = (s.data.map Char.toLower).map
          (fun c => if pyIsWordChar c || pyIsSpace c then c else ' ') from
        List.map_congr_left fun c _ => by
          unfold normChar
          cases hw : pyIsWordChar c <;> cases hs2 : pyIsSpace c <;> simp [hw, hs2]]
  · intro t ht
    by_cases hq : s.data = []
    · rw [tokenize, if_pos hq] at ht
      cases ht
    · rw [tokenize, if_neg hq] at ht
      obtain ⟨cs, hcs, rfl⟩ := List.mem_map.1 ht
      unfold tokenizeChars at hcs
      have hmem := List.mem_filter.1 hcs
      refine ⟨of_decide_eq_true hmem.2, ?_⟩
      intro c hc
      refine splitWsAux_chars (fun c => pyIsWordChar c = true ∧ c.isUpper = false)
        ((s.data.map Char.toLower).map normChar) []
        (fun c hc2 => absurd hc2 (List.not_mem_nil c)) ?_ cs hmem.1 c hc
      intro c hcm hcsp
      obtain ⟨x, hx, rfl⟩ := List.mem_map.1 hcm
      obtain ⟨y, -, rfl⟩ := List.mem_map.1 hx
      by_cases hw : pyIsWordChar (Char.toLower y) = true
      · rw [normChar_word _ hw]
        exact ⟨hw, toLower_not_upper y⟩
      · by_cases hsp : pyIsSpace (Char.toLower y) = true
        · have he : normChar (Char.toLower y) = Char.toLower y := by
            simp [normChar, hsp]
          rw [he] at hcsp
          rw [hcsp] at hsp
          exact absurd hsp Bool.false_ne_true
        · have hw2 : pyIsWordChar (Char.toLower y) = false := by
            cases hb : pyIsWordChar (Char.toLower y)
            · rfl
            · exact absurd hb hw
          have hs3 : pyIsSpace (Char.toLower y) = false := by
            cases hb : pyIsSpace (Char.toLower y)
            · rfl
            · exact absurd hb hsp
          have he : normChar (Char.toLower y) = ' ' := by
            simp [normChar, hw2, hs3]
          rw [he] at hcsp
          simp [pyIsSpace] at hcsp

/-- C6 amended witness at a concrete string containing an underscore. -/
theorem claim_c6_amended_tokenizer_witness :
    tokenize "Hi_5 a!" = tokenizeAmendedSpec "Hi_5 a!" ∧
    "hi_5" ∈ tokenize "Hi_5 a!" ∧
    1 < ("hi_5" : String).data.length ∧
    '_' ∈ ("hi_5" : String).data ∧
    pyIsWordChar '_' = true ∧ ('_').isUpper = false :=
  ⟨(claim_c6_amended_tokenizer "Hi_5 a!").1, by decide,
    ((claim_c6_amended_tokenizer "Hi_5 a!").2 "hi_5" (by decide)).1,
    by decide,
    ((claim_c6_amended_tokenizer "Hi_5 a!").2 "hi_5" (by decide)).2 '_' (by decide)⟩

end CircuitSearch
